import Mathlib

/-!
Shallow embedding of `src/check_with_openai.py`.

Python strings are modelled as `List Char`; Python `int` as `Int` (indices that
the code only ever forms as non-negative are `Nat`).  The external completion
call (`client.Completion.create`) composed with `json.loads` is modelled as an
oracle function from the request prompt to an outcome, since the service is an
external collaborator; everything else is translated from the source.
-/

/-- Python's whitespace set, as used by `str.split()`: space, tab, newline,
carriage return, vertical tab, form feed. -/
def pyIsSpace (c : Char) : Bool :=
  c = ' ' || c = '\t' || c = '\n' || c = '\r' || c = Char.ofNat 11 || c = Char.ofNat 12

/-- Python builtin `str.split()` with no argument (line 19 of the source:
`doc.split()`): split on runs of whitespace, discarding empty pieces. -/
def pySplitWords : List Char → List (List Char)
  | [] => []
  | c :: rest =>
    if pyIsSpace c then pySplitWords rest
    else
      match pySplitWords rest with
      | [] => [c] :: []
      | w :: ws =>
        match rest with
        | [] => [c] :: []
        | d :: _ => if pyIsSpace d then [c] :: w :: ws else (c :: w) :: ws

/-- Python list slice `l[a:b]` for the non-negative bounds the source uses. -/
def pySlice {α : Type} (l : List α) (a b : Nat) : List α :=
  (l.take b).drop a

/-- Python builtin `range(0, stop, step)` as used at line 23 of the source
(`range(0, len(words), chunk_size)`): start fixed at `0`, `stop` a length.
A zero step raises `ValueError`; a negative step with a non-negative stop
yields no indices; a positive step yields `0, step, 2*step, ...` below `stop`. -/
def pyRange0 (stop : Nat) (step : Int) : Except String (List Nat) :=
  if step = 0 then Except.error "range() arg 3 must not be zero"
  else if step < 0 then Except.ok []
  else Except.ok ((List.range ((stop + step.toNat - 1) / step.toNat)).map (fun i => i * step.toNat))

/-- `check_text_detailed` (source lines 6-27).  The file read
(`fp.read_text(...)`) is I/O; the document text it produces is the `doc`
parameter here.  `chunk_size = max_tokens // 4` is Python floor division,
`Int.fdiv`. -/
def check_text_detailed (doc : List Char) (max_tokens : Int) :
    Except String (List (Nat × List Char)) :=
  let words := pySplitWords (doc.map Char.toLower)
  let chunk_size := Int.fdiv max_tokens 4
  match pyRange0 words.length chunk_size with
  | Except.error e => Except.error e
  | Except.ok idxs =>
      Except.ok (idxs.map (fun start_idx =>
        (start_idx, List.intercalate (' ' :: []) (pySlice words start_idx (start_idx + chunk_size.toNat)))))

/-- Parsed JSON value, the result of `json.loads` on a response body.  Numbers
are modelled as integers; object keys are strings. -/
inductive Json : Type where
  | null : Json
  | bool (b : Bool) : Json
  | num (n : Int) : Json
  | str (s : List Char) : Json
  | arr (xs : List Json) : Json
  | obj (kvs : List (List Char × Json)) : Json

/-- Python truthiness of a parsed JSON value, as tested by
`if as_json.get("claims"):` (line 54). -/
def Json.truthy : Json → Bool
  | Json.null => false
  | Json.bool b => b
  | Json.num n => n != 0
  | Json.str s => !s.isEmpty
  | Json.arr xs => !xs.isEmpty
  | Json.obj kvs => !kvs.isEmpty

/-- `as_json.get(key)`: Python `dict.get`, `some` value when the key is
present, `none` when absent.  On a parsed value that is not a JSON object,
`.get` raises `AttributeError`, modelled as `Except.error ()`. -/
def Json.get : Json → List Char → Except Unit (Option Json)
  | Json.obj kvs, key => Except.ok (kvs.lookup key)
  | _, _ => Except.error ()

/-- Outcome of one external completion call followed by `json.loads` on the
response text: `raised` covers any exception from the call itself as well as a
JSON parse failure; `parsed` carries the successfully parsed value.  The
oracle is keyed by the full request prompt. -/
inductive CallOutcome : Type where
  | raised (msg : List Char) : CallOutcome
  | parsed (j : Json) : CallOutcome

/-- The string literal `"claims"` from lines 54-55 and 84. -/
def claimsKey : List Char :=
  "claims".data

/-- `check_with_openai` (source lines 29-60).  `oracle` abstracts
`client.Completion.create` plus `json.loads`; the model name, API key and the
fixed response-token ceiling are folded into it.  The first component is the
source's `relevant_documents`; the second collects the start indices printed
by the `except` branch (line 57), in order. -/
def check_with_openai (oracle : List Char → CallOutcome) (system_prompt : List Char) :
    List (Nat × List Char) → List (Nat × List Char × Json) × List Nat
  | [] => ([], [])
  | (start_index, chunk) :: rest =>
    let acc := check_with_openai oracle system_prompt rest
    match oracle (system_prompt ++ '\n' :: '\n' :: chunk) with
    | CallOutcome.raised _ => (acc.1, start_index :: acc.2)
    | CallOutcome.parsed as_json =>
      match Json.get as_json claimsKey with
      | Except.error _ => (acc.1, start_index :: acc.2)
      | Except.ok none => acc
      | Except.ok (some v) =>
        if v.truthy then ((start_index, chunk, v) :: acc.1, acc.2) else acc

/-- `check_doc_with_openai` (source lines 62-87).  Returns the value of the
Python function (`some` claims value on success, `none` for the `return None`
sentinel) paired with whether the `except` branch reported an error. -/
def check_doc_with_openai (oracle : List Char → CallOutcome) (system_prompt doc : List Char) :
    Option Json × Bool :=
  match oracle (system_prompt ++ '\n' :: '\n' :: doc) with
  | CallOutcome.raised _ => (none, true)
  | CallOutcome.parsed as_json =>
    match Json.get as_json claimsKey with
    | Except.error _ => (none, true)
    | Except.ok none => (some (Json.arr []), false)
    | Except.ok (some v) => (some v, false)

/-! Concrete fixtures used to exercise the extractor on closed inputs. -/

/-- Fixture: a system prompt. -/
def spW : List Char :=
  "find claims".data

/-- Fixture: first chunk text. -/
def cW1 : List Char :=
  "alpha".data

/-- Fixture: second chunk text. -/
def cW2 : List Char :=
  "beta".data

/-- Fixture: third chunk text. -/
def cW3 : List Char :=
  "gamma".data

/-- Fixture: a three-chunk input list. -/
def chunks3 : List (Nat × List Char) :=
  (0, cW1) :: (5, cW2) :: (9, cW3) :: []

/-- Fixture: a non-empty claims value. -/
def goodClaims : Json :=
  Json.arr [Json.str "x".data]

/-- Fixture oracle: the call on the second chunk raises; every other call
returns a JSON object with a non-empty claims list. -/
def oracleW (p : List Char) : CallOutcome :=
  if p = spW ++ '\n' :: '\n' :: cW2 then CallOutcome.raised "boom".data
  else CallOutcome.parsed (Json.obj [(claimsKey, goodClaims)])

/-- Fixture oracle: every call raises. -/
def oracleFail (_p : List Char) : CallOutcome :=
  CallOutcome.raised "ConnectionError".data

/-! Helper lemmas about the embedded Python primitives. -/

lemma pySplitWords_nil : pySplitWords [] = [] := rfl

lemma pySplitWords_cons_space {c : Char} (t : List Char) (hc : pyIsSpace c = true) :
    pySplitWords (c :: t) = pySplitWords t := by
  simp [pySplitWords, hc]

/-- One-step unfolding of `pySplitWords` on a non-whitespace head. -/
lemma pySplitWords_cons_word {c : Char} (t : List Char) (hc : pyIsSpace c = false) :
    pySplitWords (c :: t) =
      (match pySplitWords t with
        | [] => [c] :: []
        | w :: ws =>
          match t with
          | [] => [c] :: []
          | d :: _ => if pyIsSpace d then [c] :: w :: ws else (c :: w) :: ws) := by
  conv_lhs => rw [pySplitWords.eq_def]
  simp only [hc, Bool.false_eq_true, if_false]

lemma pySplitWords_ne_nil {d : Char} (t : List Char) (hd : pyIsSpace d = false) :
    pySplitWords (d :: t) ≠ [] := by
  simp only [pySplitWords, hd, Bool.false_eq_true, if_false]
  cases h : pySplitWords t with
  | nil => simp
  | cons w ws =>
    cases t with
    | nil => simp
    | cons e u =>
      by_cases he : pyIsSpace e <;> simp [he]

/-- Every word produced by `pySplitWords` is nonempty and contains no
whitespace character. -/
lemma pySplitWords_words_ok (s : List Char) :
    ∀ w ∈ pySplitWords s, w ≠ [] ∧ ∀ c ∈ w, pyIsSpace c = false := by
  induction s with
  | nil => simp [pySplitWords]
  | cons c rest ih =>
    by_cases hc : pyIsSpace c
    · simpa [pySplitWords, hc] using ih
    · have hc' : pyIsSpace c = false := by simpa using hc
      simp only [pySplitWords, hc', Bool.false_eq_true, if_false]
      cases hr : pySplitWords rest with
      | nil =>
        intro w hw
        simp at hw
        subst hw
        simp [hc']
      | cons w0 ws =>
        cases rest with
        | nil => simp [pySplitWords_nil] at hr
        | cons d t =>
          by_cases hd : pyIsSpace d
          · simp only [hd, if_true]
            intro w hw
            rcases List.mem_cons.mp hw with h1 | h2
            · subst h1; simp [hc']
            · exact ih w (hr ▸ h2)
          · simp only [hd, if_false]
            intro w hw
            rcases List.mem_cons.mp hw with h1 | h2
            · subst h1
              have hw0 := ih w0 (hr ▸ List.mem_cons_self w0 ws)
              refine ⟨by simp, ?_⟩
              intro e he
              rcases List.mem_cons.mp he with h3 | h4
              · subst h3; exact hc'
              · exact hw0.2 e h4
            · exact ih w (hr ▸ List.mem_cons_of_mem w0 h2)

/-- Splitting a single whitespace-free nonempty word gives back that word. -/
lemma pySplitWords_word (w : List Char) (hw : w ≠ [])
    (hok : ∀ c ∈ w, pyIsSpace c = false) :
    pySplitWords w = [w] := by
  induction w with
  | nil => exact absurd rfl hw
  | cons c w' ih =>
    have hc : pyIsSpace c = false := hok c (List.mem_cons_self c w')
    cases w' with
    | nil => simp [pySplitWords, hc]
    | cons d w'' =>
      have hd : pyIsSpace d = false := hok d (by simp)
      have ih' := ih (by simp) (fun e he => hok e (List.mem_cons_of_mem c he))
      rw [pySplitWords_cons_word _ hc, ih']
      simp [hd]

/-- Splitting a whitespace-free nonempty word followed by a space peels off
that word. -/
lemma pySplitWords_word_append (w t : List Char) (hw : w ≠ [])
    (hok : ∀ c ∈ w, pyIsSpace c = false) :
    pySplitWords (w ++ ' ' :: t) = w :: pySplitWords t := by
  induction w with
  | nil => exact absurd rfl hw
  | cons c w' ih =>
    have hc : pyIsSpace c = false := hok c (List.mem_cons_self c w')
    cases w' with
    | nil =>
      have hsp : pySplitWords (' ' :: t) = pySplitWords t :=
        pySplitWords_cons_space t (by decide)
      rw [List.cons_append, List.nil_append, pySplitWords_cons_word _ hc, hsp]
      cases hr : pySplitWords t with
      | nil => rfl
      | cons w0 ws => simp [show pyIsSpace ' ' = true from by decide]
    | cons d w'' =>
      have hd : pyIsSpace d = false := hok d (by simp)
      have ih' := ih (by simp) (fun e he => hok e (List.mem_cons_of_mem c he))
      rw [List.cons_append, pySplitWords_cons_word _ hc, ih']
      simp [hd]

lemma intercalate_space_single (w : List Char) :
    List.intercalate (' ' :: []) [w] = w := by
  simp [List.intercalate, List.intersperse]

lemma intercalate_space_cons₂ (w v : List Char) (r : List (List Char)) :
    List.intercalate (' ' :: []) (w :: v :: r) =
      w ++ ' ' :: List.intercalate (' ' :: []) (v :: r) := by
  simp [List.intercalate, List.intersperse]

/-- Round trip: splitting the space-join of nonempty whitespace-free words
recovers the words. -/
lemma pySplitWords_intercalate (ws : List (List Char))
    (h : ∀ w ∈ ws, w ≠ [] ∧ ∀ c ∈ w, pyIsSpace c = false) :
    pySplitWords (List.intercalate (' ' :: []) ws) = ws := by
  induction ws with
  | nil => simp [List.intercalate, pySplitWords_nil]
  | cons w rest ih =>
    have hw := h w (List.mem_cons_self w rest)
    cases rest with
    | nil =>
      rw [intercalate_space_single]
      exact pySplitWords_word w hw.1 hw.2
    | cons v rest' =>
      rw [intercalate_space_cons₂, pySplitWords_word_append _ _ hw.1 hw.2,
        ih (fun u hu => h u (List.mem_cons_of_mem w hu))]

/-- Ceiling division expressed through floor division and the remainder. -/
lemma ceilDiv_spec (n k : Nat) (hk : 0 < k) :
    (n + k - 1) / k = n / k + (if n % k = 0 then 0 else 1) := by
  obtain ⟨q, r, hr, rfl⟩ : ∃ q r, r < k ∧ n = k * q + r :=
    ⟨n / k, n % k, Nat.mod_lt _ hk, (Nat.div_add_mod n k).symm⟩
  have hdiv : (k * q + r) / k = q + r / k := Nat.mul_add_div hk q r
  have hmod : (k * q + r) % k = r % k := Nat.mul_add_mod k q r
  rcases Nat.eq_zero_or_pos r with h0 | h1
  · subst h0
    have e1 : k * q + 0 + k - 1 = k * q + (k - 1) := by omega
    rw [e1, Nat.mul_add_div hk, Nat.div_eq_of_lt (by omega), hdiv, hmod,
      Nat.div_eq_of_lt hk, Nat.zero_mod]
    simp
  · have e1 : k * q + r + k - 1 = k * q + ((r - 1) + k) := by omega
    rw [e1, Nat.mul_add_div hk, Nat.add_div_right _ hk, Nat.div_eq_of_lt (by omega),
      hdiv, hmod, Nat.div_eq_of_lt hr, Nat.mod_eq_of_lt hr]
    simp [Nat.pos_iff_ne_zero.mp h1]

/-- Peeling one window off a ceiling-division chunk count. -/
lemma ceilDiv_succ (n k : Nat) (hk : 0 < k) (hn : 0 < n) :
    (n + k - 1) / k = ((n - k) + k - 1) / k + 1 := by
  rcases le_or_lt n k with h | h
  · have e1 : n + k - 1 = (n - 1) + k := by omega
    have e2 : n - k = 0 := by omega
    rw [e1, Nat.add_div_right _ hk, Nat.div_eq_of_lt (by omega), e2]
    rw [Nat.zero_add, Nat.div_eq_of_lt (by omega)]
  · have e1 : n + k - 1 = (n - 1) + k := by omega
    have e2 : n - k + k - 1 = n - 1 := by omega
    rw [e1, Nat.add_div_right _ hk, e2]

/-- The fixed-stride windows of `check_text_detailed` partition the word list. -/
lemma chunks_flatten {α : Type} (k : Nat) (hk : 0 < k) (ws : List α) :
    ((List.range ((ws.length + k - 1) / k)).map
      (fun i => (ws.drop (i * k)).take k)).flatten = ws := by
  suffices H : ∀ n (ws : List α), ws.length = n →
      ((List.range ((ws.length + k - 1) / k)).map
        (fun i => (ws.drop (i * k)).take k)).flatten = ws from H ws.length ws rfl
  intro n
  induction n using Nat.strong_induction_on with
  | _ n ih =>
    intro ws hlen
    cases ws with
    | nil =>
      have h0 : (([] : List α).length + k - 1) / k = 0 := by
        simp only [List.length_nil, Nat.zero_add]
        exact Nat.div_eq_of_lt (by omega)
      rw [h0]
      simp
    | cons a t =>
      have hn : 0 < (a :: t).length := by simp
      rw [ceilDiv_succ _ k hk hn, List.range_succ_eq_map, List.map_cons, List.map_map,
        List.flatten_cons]
      have hstep : List.map ((fun i => ((a :: t).drop (i * k)).take k) ∘ Nat.succ)
          (List.range (((a :: t).length - k + k - 1) / k)) =
          List.map (fun i => (((a :: t).drop k).drop (i * k)).take k)
          (List.range (((a :: t).length - k + k - 1) / k)) := by
        apply List.map_congr_left
        intro i _
        have e : Nat.succ i * k = k + i * k := by
          simp [Nat.succ_eq_add_one]
          ring
        simp only [Function.comp_apply]
        rw [e, ← List.drop_drop]
      have hlen2 : ((a :: t).drop k).length = (a :: t).length - k := by
        simp [List.length_drop]
      have hlt : (a :: t).length - k < n := by
        have hl : (a :: t).length = t.length + 1 := by simp
        omega
      have hrec := ih ((a :: t).length - k) hlt ((a :: t).drop k) hlen2
      rw [hlen2] at hrec
      rw [hstep, Nat.zero_mul, List.drop_zero, hrec, List.take_append_drop]

/-- Space-joining a concatenation of two nonempty blocks of words inserts a
single space at the seam. -/
lemma intercalate_space_append (w r : List (List Char)) (hw : w ≠ []) (hr : r ≠ []) :
    List.intercalate (' ' :: []) (w ++ r) =
      List.intercalate (' ' :: []) w ++ ' ' :: List.intercalate (' ' :: []) r := by
  induction w with
  | nil => exact absurd rfl hw
  | cons x w' ihw =>
    cases w' with
    | nil =>
      cases r with
      | nil => exact absurd rfl hr
      | cons y r' =>
        rw [intercalate_space_single, List.cons_append, List.nil_append,
          intercalate_space_cons₂]
    | cons x2 w'' =>
      have step : (x :: x2 :: w'') ++ r = x :: x2 :: (w'' ++ r) := by simp
      rw [step, intercalate_space_cons₂]
      have step2 : x2 :: (w'' ++ r) = (x2 :: w'') ++ r := by simp
      rw [step2, ihw (by simp), intercalate_space_cons₂]
      simp

/-- Joining per-chunk space-joins equals the space-join of the concatenation,
provided every chunk is a nonempty word list. -/
lemma intercalate_map_flatten (cs : List (List (List Char)))
    (h : ∀ c ∈ cs, c ≠ []) :
    List.intercalate (' ' :: []) (cs.map (List.intercalate (' ' :: []))) =
      List.intercalate (' ' :: []) cs.flatten := by
  induction cs with
  | nil => simp [List.intercalate]
  | cons c cs' ih =>
    have hc : c ≠ [] := h c (List.mem_cons_self c cs')
    have ih' := ih (fun u hu => h u (List.mem_cons_of_mem c hu))
    cases cs' with
    | nil => simp [intercalate_space_single, List.intercalate]
    | cons c2 cs'' =>
      have hc2 : c2 ≠ [] := h c2 (by simp)
      have hr : (c2 :: cs'').flatten ≠ [] := by
        rw [List.flatten_cons]
        intro hcon
        exact hc2 (List.append_eq_nil.mp hcon).1
      have lhs_eq : List.intercalate (' ' :: [])
          ((c :: c2 :: cs'').map (List.intercalate (' ' :: []))) =
          List.intercalate (' ' :: []) c ++
            ' ' :: List.intercalate (' ' :: []) ((c2 :: cs'').flatten) := by
        rw [List.map_cons, List.map_cons, intercalate_space_cons₂, ← List.map_cons, ih']
      have rhs_eq : List.intercalate (' ' :: []) ((c :: c2 :: cs'').flatten) =
          List.intercalate (' ' :: []) c ++
            ' ' :: List.intercalate (' ' :: []) ((c2 :: cs'').flatten) := by
        rw [List.flatten_cons, intercalate_space_append c ((c2 :: cs'').flatten) hc hr]
      rw [lhs_eq, rhs_eq]

lemma pySlice_window {α : Type} (l : List α) (a k : Nat) :
    pySlice l a (a + k) = (l.drop a).take k := by
  unfold pySlice
  rw [List.drop_take]
  congr 1
  omega

/-- For a valid budget, `check_text_detailed` succeeds and its result is the
fixed-stride window decomposition of the lower-cased split word list, with
window size `max_tokens.toNat / 4` (the Python `max_tokens // 4`). -/
lemma check_text_detailed_eq (doc : List Char) (max_tokens : Int) (h : 4 ≤ max_tokens) :
    check_text_detailed doc max_tokens = Except.ok
      ((List.range (((pySplitWords (doc.map Char.toLower)).length + max_tokens.toNat / 4 - 1) /
          (max_tokens.toNat / 4))).map
        (fun i => (i * (max_tokens.toNat / 4),
          List.intercalate (' ' :: [])
            (((pySplitWords (doc.map Char.toLower)).drop (i * (max_tokens.toNat / 4))).take
              (max_tokens.toNat / 4))))) := by
  have hk : 0 < max_tokens.toNat / 4 := by omega
  have hfd : Int.fdiv max_tokens 4 = ((max_tokens.toNat / 4 : Nat) : Int) := by
    rw [Int.fdiv_eq_ediv _ (by norm_num)]
    omega
  simp only [check_text_detailed, hfd, pyRange0]
  rw [if_neg (by omega), if_neg (by omega)]
  simp only [Int.toNat_natCast, List.map_map]
  congr 1
  apply List.map_congr_left
  intro i _
  simp only [Function.comp_apply]
  rw [pySlice_window]

/-- Index arithmetic for the fixed-stride windows: every window starts inside
the list, every non-final window is full, and the final window holds the
remainder (or a full window when the length divides evenly). -/
lemma window_facts (n k : Nat) (hk : 0 < k) (i : Nat) :
    (i < (n + k - 1) / k → i * k < n) ∧
    (i + 1 < (n + k - 1) / k → i * k + k ≤ n) ∧
    (i + 1 = (n + k - 1) / k → n - i * k = if n % k = 0 then k else n % k) := by
  have hqr : (n / k) * k + n % k = n := by
    rw [Nat.mul_comm]
    exact Nat.div_add_mod n k
  have hrk : n % k < k := Nat.mod_lt _ hk
  have hm := ceilDiv_spec n k hk
  have hs : (i + 1) * k = i * k + k := Nat.succ_mul i k
  by_cases h0 : n % k = 0
  · have hm' : (n + k - 1) / k = n / k := by
      rw [hm, h0]
      simp
    have hn : (n / k) * k = n := by omega
    rw [hm', if_pos h0]
    refine ⟨?_, ?_, ?_⟩
    · intro hi
      have hlt : i * k < (n / k) * k := (Nat.mul_lt_mul_right hk).mpr hi
      omega
    · intro hi
      have hle : (i + 1) * k ≤ (n / k) * k := Nat.mul_le_mul_right k (by omega)
      omega
    · intro hi
      have he : (i + 1) * k = (n / k) * k := by rw [hi]
      omega
  · have hm' : (n + k - 1) / k = n / k + 1 := by
      rw [hm]
      simp [h0]
    rw [hm', if_neg h0]
    refine ⟨?_, ?_, ?_⟩
    · intro hi
      have hle : i * k ≤ (n / k) * k := Nat.mul_le_mul_right k (by omega)
      omega
    · intro hi
      have hle : (i + 1) * k ≤ (n / k) * k := Nat.mul_le_mul_right k (by omega)
      omega
    · intro hi
      have he : i * k = (n / k) * k := by
        have hiq : i = n / k := by omega
        rw [hiq]
      omega

lemma intercalate_space_ne_nil (ws : List (List Char)) (hne : ws ≠ [])
    (h : ∀ w ∈ ws, w ≠ []) :
    List.intercalate (' ' :: []) ws ≠ [] := by
  cases ws with
  | nil => exact absurd rfl hne
  | cons w rest =>
    cases rest with
    | nil =>
      rw [intercalate_space_single]
      exact h w (by simp)
    | cons v r =>
      rw [intercalate_space_cons₂]
      intro hcon
      rcases List.append_eq_nil.mp hcon with ⟨h1, h2⟩
      exact List.cons_ne_nil _ _ h2

/-! Claim theorems for the Chunker. -/

/-- C1: for every document text and every max_tokens ≥ 4, joining the chunk
texts produced by check_text_detailed in order with single spaces exactly
equals the lower-cased, whitespace-normalized document (the space-join of the
lower-cased document's whitespace-split words). -/
theorem chunk_coverage (doc : List Char) (max_tokens : Int) (h : 4 ≤ max_tokens) :
    ∃ l, check_text_detailed doc max_tokens = Except.ok l ∧
      List.intercalate (' ' :: []) (l.map (fun c => c.2)) =
        List.intercalate (' ' :: []) (pySplitWords (doc.map Char.toLower)) := by
  refine ⟨_, check_text_detailed_eq doc max_tokens h, ?_⟩
  set W := pySplitWords (doc.map Char.toLower) with hW
  set k := max_tokens.toNat / 4 with hkdef
  have hkpos : 0 < k := by rw [hkdef]; omega
  rw [List.map_map]
  have e1 : ((fun c : Nat × List Char => c.2) ∘
      (fun i => (i * k, List.intercalate (' ' :: []) ((W.drop (i * k)).take k)))) =
      (List.intercalate (' ' :: [])) ∘ (fun i => (W.drop (i * k)).take k) := rfl
  rw [e1, ← List.map_map]
  have hne : ∀ c ∈ (List.range ((W.length + k - 1) / k)).map
      (fun i => (W.drop (i * k)).take k), c ≠ [] := by
    intro c hc
    rcases List.mem_map.mp hc with ⟨i, hi, hci⟩
    have him := List.mem_range.mp hi
    have hlt := (window_facts W.length k hkpos i).1 him
    rw [← hci]
    apply List.ne_nil_of_length_pos
    rw [List.length_take, List.length_drop]
    omega
  rw [intercalate_map_flatten _ hne, chunks_flatten k hkpos W]

/-- Witness for C1 at a concrete document and budget. -/
theorem chunk_coverage_witness :
    4 ≤ (8 : Int) ∧
    (∃ l, check_text_detailed "Alpha beta  GAMMA delta".data 8 = Except.ok l ∧
      List.intercalate (' ' :: []) (l.map (fun c => c.2)) =
        List.intercalate (' ' :: [])
          (pySplitWords ("Alpha beta  GAMMA delta".data.map Char.toLower))) :=
  ⟨by decide, chunk_coverage "Alpha beta  GAMMA delta".data 8 (by decide)⟩

/-- C2 (amended): for 0 ≤ max_tokens < 4 the computed words-per-chunk
max_tokens // 4 is 0 and check_text_detailed raises the ValueError coming from
range's zero step — an input-validation failure rather than hanging, looping,
or producing chunks.  (For negative max_tokens the step is negative and the
chunker instead returns the empty chunk list silently; see the
counterexample.) -/
theorem chunker_zero_step_error (doc : List Char) (max_tokens : Int)
    (h0 : 0 ≤ max_tokens) (h4 : max_tokens < 4) :
    check_text_detailed doc max_tokens =
      Except.error "range() arg 3 must not be zero" := by
  have hfd : Int.fdiv max_tokens 4 = 0 := by
    rw [Int.fdiv_eq_ediv _ (by norm_num)]
    omega
  simp [check_text_detailed, hfd, pyRange0]

/-- Witness for C2's amended theorem at max_tokens = 2. -/
theorem chunker_zero_step_error_witness :
    (0 : Int) ≤ 2 ∧ (2 : Int) < 4 ∧
    check_text_detailed "hi there".data 2 =
      Except.error "range() arg 3 must not be zero" :=
  ⟨by decide, by decide,
    chunker_zero_step_error "hi there".data 2 (by decide) (by decide)⟩

/-- C2 (counterexample): at max_tokens = -4 (which is < 4) on a nonempty
document, check_text_detailed does not fail with an input-validation error: the
computed step -4 // 4 = -1 is negative, range yields no indices, and the
chunker silently returns the empty chunk list. -/
theorem chunker_negative_silent :
    check_text_detailed "a b".data (-4) = Except.ok [] := rfl

/-- C6: for every document and every max_tokens ≥ 4, every chunk produced by
check_text_detailed except possibly the last contains exactly max_tokens // 4
words, and the last chunk contains len(words) % (max_tokens // 4) words, or
the full window size when len(words) is evenly divisible by it. -/
theorem chunk_sizing (doc : List Char) (max_tokens : Int) (h : 4 ≤ max_tokens)
    (l : List (Nat × List Char)) (hl : check_text_detailed doc max_tokens = Except.ok l)
    (i : Nat) (hi : i < l.length) :
    (i + 1 < l.length → (pySplitWords (l.get ⟨i, hi⟩).2).length = max_tokens.toNat / 4) ∧
    (i + 1 = l.length →
      (pySplitWords (l.get ⟨i, hi⟩).2).length =
        if (pySplitWords (doc.map Char.toLower)).length % (max_tokens.toNat / 4) = 0
        then max_tokens.toNat / 4
        else (pySplitWords (doc.map Char.toLower)).length % (max_tokens.toNat / 4)) := by
  rw [check_text_detailed_eq doc max_tokens h] at hl
  injection hl with h2
  subst h2
  have hkpos : 0 < max_tokens.toNat / 4 := by omega
  rw [List.get_eq_getElem, List.getElem_map, List.getElem_range]
  have hsplit : pySplitWords
      (List.intercalate (' ' :: [])
        (((pySplitWords (doc.map Char.toLower)).drop
            (i * (max_tokens.toNat / 4))).take (max_tokens.toNat / 4))) =
      ((pySplitWords (doc.map Char.toLower)).drop
          (i * (max_tokens.toNat / 4))).take (max_tokens.toNat / 4) := by
    apply pySplitWords_intercalate
    intro w hw
    exact pySplitWords_words_ok (doc.map Char.toLower) w
      (List.mem_of_mem_drop (List.mem_of_mem_take hw))
  simp only [hsplit, List.length_map, List.length_range, List.length_take,
    List.length_drop]
  constructor
  · intro hlast
    have hfull := (window_facts (pySplitWords (doc.map Char.toLower)).length
      (max_tokens.toNat / 4) hkpos i).2.1 hlast
    omega
  · intro hlast
    have hfin := (window_facts (pySplitWords (doc.map Char.toLower)).length
      (max_tokens.toNat / 4) hkpos i).2.2 hlast
    have hrk : (pySplitWords (doc.map Char.toLower)).length % (max_tokens.toNat / 4) <
        max_tokens.toNat / 4 := Nat.mod_lt _ hkpos
    by_cases hz : (pySplitWords (doc.map Char.toLower)).length % (max_tokens.toNat / 4) = 0
    · rw [if_pos hz] at hfin ⊢
      omega
    · rw [if_neg hz] at hfin ⊢
      omega

/-- Witness for C6 at a concrete document whose last chunk is a remainder
chunk of one word. -/
theorem chunk_sizing_witness :
    check_text_detailed "a b c d e".data 8 =
      Except.ok [(0, "a b".data), (2, "c d".data), (4, "e".data)] ∧
    (pySplitWords
      (([(0, "a b".data), (2, "c d".data), (4, "e".data)].get ⟨2, by decide⟩).2)).length = 1 := by
  refine ⟨rfl, ?_⟩
  have hres := chunk_sizing "a b c d e".data 8 (by decide) _ rfl 2 (by decide)
  exact (hres.2 (by decide)).trans (by decide)

/-- C7: for every document and every max_tokens ≥ 4, the start index recorded
in the i-th chunk (0-based) produced by check_text_detailed equals
i * (max_tokens // 4). -/
theorem chunk_offsets (doc : List Char) (max_tokens : Int) (h : 4 ≤ max_tokens)
    (l : List (Nat × List Char)) (hl : check_text_detailed doc max_tokens = Except.ok l)
    (i : Nat) (hi : i < l.length) :
    (l.get ⟨i, hi⟩).1 = i * (max_tokens.toNat / 4) := by
  rw [check_text_detailed_eq doc max_tokens h] at hl
  injection hl with h2
  subst h2
  rw [List.get_eq_getElem, List.getElem_map, List.getElem_range]

/-- Witness for C7: the third chunk of a five-word document with budget 8
starts at word index 4. -/
theorem chunk_offsets_witness :
    check_text_detailed "a b c d e".data 8 =
      Except.ok [(0, "a b".data), (2, "c d".data), (4, "e".data)] ∧
    (([(0, "a b".data), (2, "c d".data), (4, "e".data)] :
        List (Nat × List Char)).get ⟨2, by decide⟩).1 = 2 * ((8 : Int).toNat / 4) :=
  ⟨rfl, chunk_offsets "a b c d e".data 8 (by decide) _ rfl 2 (by decide)⟩

/-- C8: for every max_tokens ≥ 4, check_text_detailed never produces an empty
chunk text (so no chunk is empty when the document is nonempty, and vacuously
otherwise), and an empty document yields the empty chunk list. -/
theorem chunk_nonempty (doc : List Char) (max_tokens : Int) (h : 4 ≤ max_tokens)
    (l : List (Nat × List Char)) (hl : check_text_detailed doc max_tokens = Except.ok l) :
    (∀ c ∈ l, c.2 ≠ []) ∧ (doc = [] → l = []) := by
  rw [check_text_detailed_eq doc max_tokens h] at hl
  injection hl with h2
  subst h2
  set W := pySplitWords (doc.map Char.toLower) with hW
  set k := max_tokens.toNat / 4 with hkdef
  have hkpos : 0 < k := by rw [hkdef]; omega
  constructor
  · intro c hc
    rcases List.mem_map.mp hc with ⟨i, hi, hci⟩
    have him := List.mem_range.mp hi
    have hlt := (window_facts W.length k hkpos i).1 him
    rw [← hci]
    apply intercalate_space_ne_nil
    · apply List.ne_nil_of_length_pos
      rw [List.length_take, List.length_drop]
      omega
    · intro w hw
      have hwW : w ∈ pySplitWords (doc.map Char.toLower) := by
        rw [← hW]
        exact List.mem_of_mem_drop (List.mem_of_mem_take hw)
      exact (pySplitWords_words_ok (doc.map Char.toLower) w hwW).1
  · intro hdoc
    subst hdoc
    have hWnil : W = [] := by rw [hW]; rfl
    have h0 : (W.length + k - 1) / k = 0 := by
      rw [hWnil]
      simp only [List.length_nil, Nat.zero_add]
      exact Nat.div_eq_of_lt (by omega)
    rw [h0]
    rfl

/-- Witness for C8: both chunk texts of a concrete two-word document are
nonempty. -/
theorem chunk_nonempty_witness :
    check_text_detailed "x y".data 4 = Except.ok [(0, "x".data), (1, "y".data)] ∧
    "x".data ≠ ([] : List Char) :=
  ⟨rfl, (chunk_nonempty "x y".data 4 (by decide) _ rfl).1 (0, "x".data) (by decide)⟩

/-! Helper lemmas about the chunked-mode extractor. -/

/-- Definitional unfolding of `check_with_openai` on a cons cell. -/
lemma check_with_openai_cons (oracle : List Char → CallOutcome) (sp : List Char)
    (s0 : Nat) (c0 : List Char) (rest : List (Nat × List Char)) :
    check_with_openai oracle sp ((s0, c0) :: rest) =
      (match oracle (sp ++ '\n' :: '\n' :: c0) with
        | CallOutcome.raised _ =>
          ((check_with_openai oracle sp rest).1, s0 :: (check_with_openai oracle sp rest).2)
        | CallOutcome.parsed as_json =>
          match Json.get as_json claimsKey with
          | Except.error _ =>
            ((check_with_openai oracle sp rest).1, s0 :: (check_with_openai oracle sp rest).2)
          | Except.ok none => check_with_openai oracle sp rest
          | Except.ok (some v) =>
            if v.truthy then
              ((s0, c0, v) :: (check_with_openai oracle sp rest).1,
                (check_with_openai oracle sp rest).2)
            else check_with_openai oracle sp rest) := rfl

/-- Unfolding when the call (or parse) raises: skip and log. -/
lemma check_with_openai_cons_raised (oracle : List Char → CallOutcome) (sp : List Char)
    (s0 : Nat) (c0 : List Char) (rest : List (Nat × List Char)) (m : List Char)
    (ho : oracle (sp ++ '\n' :: '\n' :: c0) = CallOutcome.raised m) :
    check_with_openai oracle sp ((s0, c0) :: rest) =
      ((check_with_openai oracle sp rest).1, s0 :: (check_with_openai oracle sp rest).2) := by
  rw [check_with_openai_cons, ho]

/-- Unfolding when the parsed value is not an object (`.get` raises). -/
lemma check_with_openai_cons_geterr (oracle : List Char → CallOutcome) (sp : List Char)
    (s0 : Nat) (c0 : List Char) (rest : List (Nat × List Char)) (j : Json)
    (ho : oracle (sp ++ '\n' :: '\n' :: c0) = CallOutcome.parsed j)
    (hg : Json.get j claimsKey = Except.error ()) :
    check_with_openai oracle sp ((s0, c0) :: rest) =
      ((check_with_openai oracle sp rest).1, s0 :: (check_with_openai oracle sp rest).2) := by
  simp only [check_with_openai_cons, ho, hg]

/-- Unfolding when the claims key is absent: skip silently. -/
lemma check_with_openai_cons_none (oracle : List Char → CallOutcome) (sp : List Char)
    (s0 : Nat) (c0 : List Char) (rest : List (Nat × List Char)) (j : Json)
    (ho : oracle (sp ++ '\n' :: '\n' :: c0) = CallOutcome.parsed j)
    (hg : Json.get j claimsKey = Except.ok none) :
    check_with_openai oracle sp ((s0, c0) :: rest) = check_with_openai oracle sp rest := by
  simp only [check_with_openai_cons, ho, hg]

/-- Unfolding when the claims key is present. -/
lemma check_with_openai_cons_some (oracle : List Char → CallOutcome) (sp : List Char)
    (s0 : Nat) (c0 : List Char) (rest : List (Nat × List Char)) (j v : Json)
    (ho : oracle (sp ++ '\n' :: '\n' :: c0) = CallOutcome.parsed j)
    (hg : Json.get j claimsKey = Except.ok (some v)) :
    check_with_openai oracle sp ((s0, c0) :: rest) =
      (if v.truthy then
        ((s0, c0, v) :: (check_with_openai oracle sp rest).1,
          (check_with_openai oracle sp rest).2)
      else check_with_openai oracle sp rest) := by
  simp only [check_with_openai_cons, ho, hg]

/-- Every record in the chunked-mode output comes verbatim from an input chunk
whose call parsed to an object with a truthy claims value. -/
lemma check_with_openai_mem_elim (oracle : List Char → CallOutcome)
    (system_prompt : List Char) (chunks : List (Nat × List Char))
    (r : Nat × List Char × Json)
    (hr : r ∈ (check_with_openai oracle system_prompt chunks).1) :
    (r.1, r.2.1) ∈ chunks ∧
    ∃ j, oracle (system_prompt ++ '\n' :: '\n' :: r.2.1) = CallOutcome.parsed j ∧
      Json.get j claimsKey = Except.ok (some r.2.2) ∧ r.2.2.truthy = true := by
  induction chunks with
  | nil => simp [check_with_openai] at hr
  | cons hd tl ih =>
    obtain ⟨s0, c0⟩ := hd
    cases ho : oracle (system_prompt ++ '\n' :: '\n' :: c0) with
    | raised m =>
      rw [check_with_openai_cons_raised oracle system_prompt s0 c0 tl m ho] at hr
      have h12 := ih hr
      exact ⟨List.mem_cons_of_mem _ h12.1, h12.2⟩
    | parsed j =>
      cases hg : Json.get j claimsKey with
      | error u =>
        cases u
        rw [check_with_openai_cons_geterr oracle system_prompt s0 c0 tl j ho hg] at hr
        have h12 := ih hr
        exact ⟨List.mem_cons_of_mem _ h12.1, h12.2⟩
      | ok o =>
        cases o with
        | none =>
          rw [check_with_openai_cons_none oracle system_prompt s0 c0 tl j ho hg] at hr
          have h12 := ih hr
          exact ⟨List.mem_cons_of_mem _ h12.1, h12.2⟩
        | some v =>
          rw [check_with_openai_cons_some oracle system_prompt s0 c0 tl j v ho hg] at hr
          by_cases hv : v.truthy
          · rw [if_pos hv] at hr
            rcases List.mem_cons.mp hr with heq | htl
            · subst heq
              exact ⟨List.mem_cons_self _ _, ⟨j, ho, hg, hv⟩⟩
            · have h12 := ih htl
              exact ⟨List.mem_cons_of_mem _ h12.1, h12.2⟩
          · rw [if_neg hv] at hr
            have h12 := ih hr
            exact ⟨List.mem_cons_of_mem _ h12.1, h12.2⟩

/-- Conversely, an input chunk whose call parses to an object with a truthy
claims value contributes its record to the chunked-mode output. -/
lemma check_with_openai_mem_intro (oracle : List Char → CallOutcome)
    (system_prompt : List Char) (chunks : List (Nat × List Char))
    (s : Nat) (c : List Char) (v j : Json)
    (hmem : (s, c) ∈ chunks)
    (hj : oracle (system_prompt ++ '\n' :: '\n' :: c) = CallOutcome.parsed j)
    (hg : Json.get j claimsKey = Except.ok (some v))
    (hv : v.truthy = true) :
    (s, c, v) ∈ (check_with_openai oracle system_prompt chunks).1 := by
  induction chunks with
  | nil => simp at hmem
  | cons hd tl ih =>
    obtain ⟨s0, c0⟩ := hd
    rcases List.mem_cons.mp hmem with heq | htl
    · obtain ⟨rfl, rfl⟩ : s = s0 ∧ c = c0 :=
        ⟨congrArg Prod.fst heq, congrArg Prod.snd heq⟩
      rw [check_with_openai_cons_some oracle system_prompt s c tl j v hj hg, if_pos hv]
      exact List.mem_cons_self _ _
    · have ihm := ih htl
      cases ho : oracle (system_prompt ++ '\n' :: '\n' :: c0) with
      | raised m =>
        rw [check_with_openai_cons_raised oracle system_prompt s0 c0 tl m ho]
        exact ihm
      | parsed j0 =>
        cases hg0 : Json.get j0 claimsKey with
        | error u =>
          cases u
          rw [check_with_openai_cons_geterr oracle system_prompt s0 c0 tl j0 ho hg0]
          exact ihm
        | ok o =>
          cases o with
          | none =>
            rw [check_with_openai_cons_none oracle system_prompt s0 c0 tl j0 ho hg0]
            exact ihm
          | some v0 =>
            rw [check_with_openai_cons_some oracle system_prompt s0 c0 tl j0 v0 ho hg0]
            by_cases hv0 : v0.truthy
            · rw [if_pos hv0]
              exact List.mem_cons_of_mem _ ihm
            · rw [if_neg hv0]
              exact ihm

/-! Claim theorems for the Claim Extractor. -/

/-- C3: if the call or JSON parsing for one chunk raises, check_with_openai
reports that chunk's start index and continues: the results are exactly those
of the run without the failing chunk, which contributes no output record. -/
theorem chunked_error_isolated (oracle : List Char → CallOutcome)
    (system_prompt : List Char) (pre post : List (Nat × List Char))
    (s : Nat) (c : List Char)
    (hfail : ∃ m, oracle (system_prompt ++ '\n' :: '\n' :: c) = CallOutcome.raised m) :
    (check_with_openai oracle system_prompt (pre ++ (s, c) :: post)).1 =
      (check_with_openai oracle system_prompt (pre ++ post)).1 ∧
    s ∈ (check_with_openai oracle system_prompt (pre ++ (s, c) :: post)).2 := by
  obtain ⟨m, hm⟩ := hfail
  induction pre with
  | nil =>
    rw [List.nil_append, List.nil_append,
      check_with_openai_cons_raised oracle system_prompt s c post m hm]
    exact ⟨rfl, List.mem_cons_self _ _⟩
  | cons hd tl ih =>
    obtain ⟨s0, c0⟩ := hd
    rw [List.cons_append, List.cons_append]
    cases ho : oracle (system_prompt ++ '\n' :: '\n' :: c0) with
    | raised m0 =>
      rw [check_with_openai_cons_raised oracle system_prompt s0 c0
          (tl ++ (s, c) :: post) m0 ho,
        check_with_openai_cons_raised oracle system_prompt s0 c0 (tl ++ post) m0 ho]
      exact ⟨ih.1, List.mem_cons_of_mem _ ih.2⟩
    | parsed j =>
      cases hg : Json.get j claimsKey with
      | error u =>
        cases u
        rw [check_with_openai_cons_geterr oracle system_prompt s0 c0
            (tl ++ (s, c) :: post) j ho hg,
          check_with_openai_cons_geterr oracle system_prompt s0 c0 (tl ++ post) j ho hg]
        exact ⟨ih.1, List.mem_cons_of_mem _ ih.2⟩
      | ok o =>
        cases o with
        | none =>
          rw [check_with_openai_cons_none oracle system_prompt s0 c0
              (tl ++ (s, c) :: post) j ho hg,
            check_with_openai_cons_none oracle system_prompt s0 c0 (tl ++ post) j ho hg]
          exact ih
        | some v =>
          rw [check_with_openai_cons_some oracle system_prompt s0 c0
              (tl ++ (s, c) :: post) j v ho hg,
            check_with_openai_cons_some oracle system_prompt s0 c0 (tl ++ post) j v ho hg]
          by_cases hv : v.truthy
          · rw [if_pos hv, if_pos hv]
            exact ⟨by rw [ih.1], ih.2⟩
          · rw [if_neg hv, if_neg hv]
            exact ih

/-- Witness for C3: three concrete chunks where the second chunk's call
raises; the output equals that of the two-chunk run and the failure is
reported under start index 5. -/
theorem chunked_error_isolated_witness :
    (check_with_openai oracleW spW ((0, cW1) :: (5, cW2) :: (9, cW3) :: [])).1 =
      (check_with_openai oracleW spW ((0, cW1) :: (9, cW3) :: [])).1 ∧
    5 ∈ (check_with_openai oracleW spW ((0, cW1) :: (5, cW2) :: (9, cW3) :: [])).2 :=
  chunked_error_isolated oracleW spW ((0, cW1) :: []) ((9, cW3) :: []) 5 cW2
    ⟨"boom".data, rfl⟩

/-- C4: a chunk's record is in the chunked-mode output iff its call parsed to
a JSON object whose claims field is present and truthy (non-empty); a chunk
with empty claims, a missing claims field, a non-object response, or a failed
call is excluded. -/
theorem chunked_inclusion_iff (oracle : List Char → CallOutcome)
    (system_prompt : List Char) (chunks : List (Nat × List Char))
    (s : Nat) (c : List Char) (hmem : (s, c) ∈ chunks) :
    (∃ v, (s, c, v) ∈ (check_with_openai oracle system_prompt chunks).1) ↔
    (∃ j v, oracle (system_prompt ++ '\n' :: '\n' :: c) = CallOutcome.parsed j ∧
      Json.get j claimsKey = Except.ok (some v) ∧ v.truthy = true) := by
  constructor
  · rintro ⟨v, hv⟩
    obtain ⟨j, hj, hg, hv2⟩ :=
      (check_with_openai_mem_elim oracle system_prompt chunks (s, c, v) hv).2
    exact ⟨j, v, hj, hg, hv2⟩
  · rintro ⟨j, v, hj, hg, hv⟩
    exact ⟨v, check_with_openai_mem_intro oracle system_prompt chunks s c v j
      hmem hj hg hv⟩

/-- Witness for C4 at the first fixture chunk, whose call yields a non-empty
claims list. -/
theorem chunked_inclusion_iff_witness :
    (∃ v, (0, cW1, v) ∈ (check_with_openai oracleW spW chunks3).1) ↔
    (∃ j v, oracleW (spW ++ '\n' :: '\n' :: cW1) = CallOutcome.parsed j ∧
      Json.get j claimsKey = Except.ok (some v) ∧ v.truthy = true) :=
  chunked_inclusion_iff oracleW spW chunks3 0 cW1 (by decide)

/-- C9: the chunked-mode output preserves input order — projecting each
record to its (start index, chunk text) gives an in-order subsequence of the
input chunk list. -/
theorem chunked_output_order (oracle : List Char → CallOutcome)
    (system_prompt : List Char) (chunks : List (Nat × List Char)) :
    ((check_with_openai oracle system_prompt chunks).1.map
      (fun r => (r.1, r.2.1))).Sublist chunks := by
  induction chunks with
  | nil => simp [check_with_openai]
  | cons hd tl ih =>
    obtain ⟨s0, c0⟩ := hd
    cases ho : oracle (system_prompt ++ '\n' :: '\n' :: c0) with
    | raised m =>
      rw [check_with_openai_cons_raised oracle system_prompt s0 c0 tl m ho]
      exact List.Sublist.cons _ ih
    | parsed j =>
      cases hg : Json.get j claimsKey with
      | error u =>
        cases u
        rw [check_with_openai_cons_geterr oracle system_prompt s0 c0 tl j ho hg]
        exact List.Sublist.cons _ ih
      | ok o =>
        cases o with
        | none =>
          rw [check_with_openai_cons_none oracle system_prompt s0 c0 tl j ho hg]
          exact List.Sublist.cons _ ih
        | some v =>
          rw [check_with_openai_cons_some oracle system_prompt s0 c0 tl j v ho hg]
          by_cases hv : v.truthy
          · rw [if_pos hv]
            exact List.Sublist.cons₂ _ ih
          · rw [if_neg hv]
            exact List.Sublist.cons _ ih

/-- C10: every chunked-mode output record carries its input chunk's start
index and chunk text verbatim, and its third component is exactly the parsed
response's claims value, passed through unmodified. -/
theorem chunked_record_fields (oracle : List Char → CallOutcome)
    (system_prompt : List Char) (chunks : List (Nat × List Char))
    (r : Nat × List Char × Json)
    (hr : r ∈ (check_with_openai oracle system_prompt chunks).1) :
    (r.1, r.2.1) ∈ chunks ∧
    ∃ j, oracle (system_prompt ++ '\n' :: '\n' :: r.2.1) = CallOutcome.parsed j ∧
      Json.get j claimsKey = Except.ok (some r.2.2) ∧ r.2.2.truthy = true :=
  check_with_openai_mem_elim oracle system_prompt chunks r hr

/-- Witness for C10: the first fixture record is passed through verbatim. -/
theorem chunked_record_fields_witness :
    ((0, cW1, goodClaims).1, (0, cW1, goodClaims).2.1) ∈ chunks3 ∧
    ∃ j, oracleW (spW ++ '\n' :: '\n' :: (0, cW1, goodClaims).2.1) =
        CallOutcome.parsed j ∧
      Json.get j claimsKey = Except.ok (some (0, cW1, goodClaims).2.2) ∧
      (0, cW1, goodClaims).2.2.truthy = true :=
  chunked_record_fields oracleW spW chunks3 (0, cW1, goodClaims)
    (check_with_openai_mem_intro oracleW spW chunks3 0 cW1 goodClaims
      (Json.obj [(claimsKey, goodClaims)]) (by decide) rfl rfl rfl)

/-- C5: whole-document mode returns the parsed claims value on success (the
empty list when the field is absent) and, on any failure — the call raised,
the response did not parse, or the parsed value is not an object — reports
the error and returns the None sentinel, which is distinct from the empty
list. -/
theorem doc_failure_sentinel (oracle : List Char → CallOutcome)
    (system_prompt doc : List Char) :
    ((∃ m, oracle (system_prompt ++ '\n' :: '\n' :: doc) = CallOutcome.raised m) ∨
      (∃ j, oracle (system_prompt ++ '\n' :: '\n' :: doc) = CallOutcome.parsed j ∧
        Json.get j claimsKey = Except.error ()) →
      check_doc_with_openai oracle system_prompt doc = (none, true)) ∧
    (∀ j r, oracle (system_prompt ++ '\n' :: '\n' :: doc) = CallOutcome.parsed j →
      Json.get j claimsKey = Except.ok r →
      check_doc_with_openai oracle system_prompt doc =
        (some (r.getD (Json.arr [])), false)) ∧
    (none : Option Json) ≠ some (Json.arr []) := by
  refine ⟨?_, ?_, by simp⟩
  · rintro (⟨m, hm⟩ | ⟨j, hj, hg⟩)
    · simp [check_doc_with_openai, hm]
    · simp [check_doc_with_openai, hj, hg]
  · intro j r hj hg
    cases r with
    | none => simp [check_doc_with_openai, hj, hg]
    | some v => simp [check_doc_with_openai, hj, hg]

/-- Witness for C5: with an oracle that always raises, whole-document mode
returns the None sentinel and reports the error. -/
theorem doc_failure_sentinel_witness :
    check_doc_with_openai oracleFail spW "some doc".data = (none, true) :=
  (doc_failure_sentinel oracleFail spW "some doc".data).1
    (Or.inl ⟨"ConnectionError".data, rfl⟩)
